import Mathlib

set_option autoImplicit false

/-!
Verification of the `tree_is_up` tree container.

`Node` is a shallow embedding of `src/tree_is_up/node.py`.  The Python
per-view dictionaries `_predecessor : Dict[str, str]` and
`_successors : Dict[str, List[str]]` are modelled as functions
`String → Option _` (a key absent from the dict maps to `none`); the
dynamically typed `tag` and `data` fields (`Any` in Python) are modelled
as `Option String`, which covers every value the claims exercise.

`tree.py` is not part of the sources, so the `Tree` registry and its
operations are modelled from the specification text (each such
definition carries a `Modelled from the spec:` doc comment).
-/

namespace TreeIsUp

/-- Embeds the `Node` class of `src/tree_is_up/node.py`: tag, identifier,
`expanded` flag, the two per-view dictionaries and the `data` payload. -/
structure Node where
  tag : Option String
  identifier : String
  expanded : Bool
  _predecessor : String → Option String
  _successors : String → Option (List String)
  data : Option String

namespace Node

/-- Embeds `Node.__init__`: stores `tag`, `identifier` and `expanded` as passed,
starts with both per-view dicts empty and `data = None`.  (In Python the
parameters default to `None`, `""` and `True` respectively.) -/
def init (tag : Option String) (identifier : String) (expanded : Bool) : Node :=
  { tag := tag
    identifier := identifier
    expanded := expanded
    _predecessor := fun _ => none
    _successors := fun _ => none
    data := none }

/-- The `identifier` property setter: a plain field update on the node. -/
def set_identifier (n : Node) (value : String) : Node :=
  { n with identifier := value }

/-- Embeds `Node.set_predecessor`: `None` pops the view's entry, otherwise the
entry is overwritten. -/
def set_predecessor (n : Node) (predecessor_id : Option String) (tree_id : String) : Node :=
  match predecessor_id with
  | none =>
      { n with _predecessor := fun k => if k = tree_id then none else n._predecessor k }
  | some pid =>
      { n with _predecessor := fun k => if k = tree_id then some pid else n._predecessor k }

/-- Embeds `Node.set_successors`: overwrites the view's successor list. -/
def set_successors (n : Node) (successor_ids : List String) (tree_id : String) : Node :=
  { n with _successors := fun k => if k = tree_id then some successor_ids else n._successors k }

/-- Embeds `Node.update_successors`: creates an empty list for an unknown view,
then appends `successor_id` to the view's list (unconditionally). -/
def update_successors (n : Node) (successor_id : String) (tree_id : String) : Node :=
  { n with
    _successors := fun k =>
      if k = tree_id then some (((n._successors tree_id).getD []) ++ [successor_id])
      else n._successors k }

/-- Embeds `Node.successors`: `self._successors.get(tree_id, [])`. -/
def successors (n : Node) (tree_id : String) : List String :=
  (n._successors tree_id).getD []

/-- Embeds `Node.predecessor`: `self._predecessor.get(tree_id, None)`. -/
def predecessor (n : Node) (tree_id : String) : Option String :=
  n._predecessor tree_id

/-- Embeds `Node.is_leaf`: `not self.successors(tree_id)`. -/
def is_leaf (n : Node) (tree_id : String) : Bool :=
  (n.successors tree_id).isEmpty

end Node

/-- The successor list after `update_successors` is the old list with the
new identifier appended at the end. -/
theorem update_successors_eq_append (n : Node) (s t : String) :
    (n.update_successors s t).successors t = n.successors t ++ [s] := by
  simp [Node.update_successors, Node.successors]

/-- A freshly appended-to node used below as a concrete input. -/
def nodeA : Node := Node.init (some "A") "a" true

/-- C1 (counterexample): after one `update_successors "s" "t"` the node
already has `"s"` among its view-`"t"` successors, yet a second identical
call changes the list (it appends a duplicate), contradicting the claim
that a duplicate append leaves the list unchanged. -/
theorem C1_counterexample :
    "s" ∈ (nodeA.update_successors "s" "t").successors "t" ∧
    ((nodeA.update_successors "s" "t").update_successors "s" "t").successors "t" ≠
      (nodeA.update_successors "s" "t").successors "t" := by
  constructor
  · simp [nodeA, Node.init, Node.update_successors, Node.successors]
  · simp [nodeA, Node.init, Node.update_successors, Node.successors]

/-- C1 (amended): `update_successors(s, t)` appends `s` unconditionally to
the node's successor list for view `t` — afterwards `successors(t)` is the
old list with `s` appended (hence contains `s`); no duplicate check is
performed, so appending an identifier that is already a successor
duplicates it. -/
theorem C1_update_successors_appends (n : Node) (s t : String) :
    (n.update_successors s t).successors t = n.successors t ++ [s] ∧
    s ∈ (n.update_successors s t).successors t := by
  refine ⟨update_successors_eq_append n s t, ?_⟩
  rw [update_successors_eq_append]
  simp

/-- C2: structural mutation under view `t1` (`set_predecessor`,
`set_successors`, `update_successors`) leaves `predecessor`, `successors`
and `is_leaf` under any other view `t2 ≠ t1` unchanged. -/
theorem C2_structural_mutation_scoped_to_view (n : Node) (t1 t2 : String)
    (p : Option String) (l : List String) (s : String) (h : t1 ≠ t2) :
    ((n.set_predecessor p t1).predecessor t2 = n.predecessor t2 ∧
     (n.set_predecessor p t1).successors t2 = n.successors t2 ∧
     (n.set_predecessor p t1).is_leaf t2 = n.is_leaf t2) ∧
    ((n.set_successors l t1).predecessor t2 = n.predecessor t2 ∧
     (n.set_successors l t1).successors t2 = n.successors t2 ∧
     (n.set_successors l t1).is_leaf t2 = n.is_leaf t2) ∧
    ((n.update_successors s t1).predecessor t2 = n.predecessor t2 ∧
     (n.update_successors s t1).successors t2 = n.successors t2 ∧
     (n.update_successors s t1).is_leaf t2 = n.is_leaf t2) := by
  have h2 : t2 ≠ t1 := fun hh => h hh.symm
  cases p <;>
    simp [Node.set_predecessor, Node.set_successors, Node.update_successors,
      Node.predecessor, Node.successors, Node.is_leaf, h2]

/-- C2 witness: concrete instance with views `"a" ≠ "b"`. -/
theorem C2_witness :
    ((nodeA.set_predecessor (some "p") "a").predecessor "b" = nodeA.predecessor "b") := by
  exact (C2_structural_mutation_scoped_to_view nodeA "a" "b" (some "p") ["x"] "s"
    (by decide)).1.1

/-- C3: `is_leaf(t)` is true exactly when `successors(t)` is the empty
list; both an absent view entry and a recorded empty list count as leaf. -/
theorem C3_is_leaf_iff_no_successors (n : Node) (t : String) :
    (n.is_leaf t = true ↔ n.successors t = []) ∧
    (n._successors t = none → n.is_leaf t = true) ∧
    (n._successors t = some [] → n.is_leaf t = true) := by
  refine ⟨?_, ?_, ?_⟩
  · simp [Node.is_leaf, List.isEmpty_iff]
  · intro h; simp [Node.is_leaf, Node.successors, h]
  · intro h; simp [Node.is_leaf, Node.successors, h]

/-- C3 witness: a fresh node has no entry for view `"v"` and is a leaf. -/
theorem C3_witness : (Node.init none "" true).is_leaf "v" = true := by
  exact (C3_is_leaf_iff_no_successors (Node.init none "" true) "v").2.1 rfl

/-- C4: for a view `t` with no recorded entry in either per-view dict, the
accessors default: `successors t = []`, `predecessor t = None`,
`is_leaf t = True`. -/
theorem C4_accessors_default_on_unknown_view (n : Node) (t : String)
    (hp : n._predecessor t = none) (hs : n._successors t = none) :
    n.successors t = [] ∧ n.predecessor t = none ∧ n.is_leaf t = true := by
  refine ⟨?_, ?_, ?_⟩
  · simp [Node.successors, hs]
  · simp [Node.predecessor, hp]
  · simp [Node.is_leaf, Node.successors, hs]

/-- C4 witness: a freshly constructed node queried under view `"v"`. -/
theorem C4_witness :
    (Node.init none "" true).successors "v" = [] ∧
    (Node.init none "" true).predecessor "v" = none ∧
    (Node.init none "" true).is_leaf "v" = true := by
  exact C4_accessors_default_on_unknown_view (Node.init none "" true) "v" rfl rfl

/-- C10: a freshly constructed node stores `tag`, `identifier` and
`expanded` exactly as passed (in Python they default to `None`, `""`,
`True`), starts with `data = None` and with both per-view dicts empty. -/
theorem C10_fresh_node_fields (tag : Option String) (id : String) (exp : Bool) :
    (Node.init tag id exp).data = none ∧
    (∀ v, (Node.init tag id exp)._predecessor v = none) ∧
    (∀ v, (Node.init tag id exp)._successors v = none) ∧
    (Node.init tag id exp).tag = tag ∧
    (Node.init tag id exp).identifier = id ∧
    (Node.init tag id exp).expanded = exp := by
  exact ⟨rfl, fun _ => rfl, fun _ => rfl, rfl, rfl, rfl⟩

/-- Modelled from the spec: the error taxonomy of §7 (`tree.py` is not
under `src/`).  `ValueErrorDup` carries the list of duplicated identifiers
reported by `paste`. -/
inductive TreeErr where
  | NodeIDAbsentError
  | DuplicatedNodeIdError
  | LoopError
  | MultipleRootError
  | ValueErrorDup (ids : List String)
deriving DecidableEq

/-- Modelled from the spec: the `Tree` registry of §3 — a view identifier,
the view's optional root identifier, and a mapping from node identifier to
`Node`, kept as an insertion-ordered association list (Python dicts
preserve insertion order). -/
structure Tree where
  identifier : String
  root : Option String
  nodes : List (String × Node)

/-- First-match lookup in the identifier → node association list. -/
def lookupNode : List (String × Node) → String → Option Node
  | [], _ => none
  | (k, n) :: rest, k' => if k' = k then some n else lookupNode rest k'

/-- Applies `f` to every entry stored under key `k`. -/
def updateNode : List (String × Node) → String → (Node → Node) → List (String × Node)
  | [], _, _ => []
  | (ek, en) :: rest, k, f =>
    (if ek = k then (ek, f en) else (ek, en)) :: updateNode rest k f

theorem lookupNode_updateNode (l : List (String × Node)) (k k' : String) (f : Node → Node) :
    lookupNode (updateNode l k f) k' =
      if k' = k then (lookupNode l k).map f else lookupNode l k' := by
  induction l with
  | nil => by_cases h : k' = k <;> simp [updateNode, lookupNode, h]
  | cons e rest ih =>
    obtain ⟨ek, en⟩ := e
    simp only [updateNode]
    by_cases h1 : ek = k
    · rw [if_pos h1]
      subst h1
      by_cases h2 : k' = ek
      · subst h2
        simp [lookupNode]
      · simp [lookupNode, h2, ih]
    · rw [if_neg h1]
      have h1' : ¬k = ek := fun hh => h1 hh.symm
      by_cases h2 : k' = ek
      · subst h2
        simp [lookupNode, h1]
      · simp [lookupNode, h1', h2, ih]

theorem lookupNode_append (l1 l2 : List (String × Node)) (k : String) :
    lookupNode (l1 ++ l2) k =
      match lookupNode l1 k with
      | some n => some n
      | none => lookupNode l2 k := by
  induction l1 with
  | nil => simp [lookupNode]
  | cons e rest ih =>
    by_cases h : k = e.1 <;> simp [lookupNode, h, ih]

/-- A key is absent from the lookup exactly when no entry carries it. -/
theorem lookupNode_eq_none_iff (l : List (String × Node)) (k : String) :
    lookupNode l k = none ↔ ∀ e ∈ l, e.1 ≠ k := by
  induction l with
  | nil => simp [lookupNode]
  | cons e rest ih =>
    obtain ⟨ek, en⟩ := e
    by_cases h : k = ek
    · subst h
      simp [lookupNode]
    · simp [lookupNode, h, ih, Ne.symm h]

theorem lookupNode_isSome_iff (l : List (String × Node)) (k : String) :
    (lookupNode l k).isSome = true ↔ k ∈ l.map Prod.fst := by
  induction l with
  | nil => simp [lookupNode]
  | cons e rest ih =>
    obtain ⟨ek, en⟩ := e
    by_cases h : k = ek
    · subst h
      simp [lookupNode]
    · simp [lookupNode, h, ih]

namespace Tree

/-- Modelled from the spec: `get_node` returns `None` for an absent id. -/
def get_node (T : Tree) (nid : String) : Option Node :=
  lookupNode T.nodes nid

/-- Modelled from the spec: membership test (`contains`/`in`). -/
def contains (T : Tree) (nid : String) : Bool :=
  (T.get_node nid).isSome

/-- Modelled from the spec: `children(nid)` — the node's successor ids in
this tree's view (empty for an absent node). -/
def children (T : Tree) (nid : String) : List String :=
  match T.get_node nid with
  | none => []
  | some n => n.successors T.identifier

/-- Modelled from the spec: `parent(nid)` — the node's predecessor id in
this tree's view (`None` for the root or an absent node). -/
def parent (T : Tree) (nid : String) : Option String :=
  (T.get_node nid).bind fun n => n.predecessor T.identifier

/-- Modelled from the spec §4.2: `create_node` — fails on a duplicated id,
on an absent parent, and on a second parentless node; the first parentless
node becomes the root, otherwise the new node is attached as the last
child of `parent`. -/
def create_node (T : Tree) (tag : Option String) (nid : String)
    (parent : Option String) : Except TreeErr Tree :=
  if (T.get_node nid).isSome then .error .DuplicatedNodeIdError
  else
    match parent with
    | none =>
      if T.root = none then
        .ok { T with root := some nid, nodes := T.nodes ++ [(nid, Node.init tag nid true)] }
      else .error .MultipleRootError
    | some p =>
      if (T.get_node p).isNone then .error .NodeIDAbsentError
      else
        .ok { T with
              nodes :=
                updateNode T.nodes p (fun n => n.update_successors nid T.identifier) ++
                  [(nid, (Node.init tag nid true).set_predecessor (some p) T.identifier)] }

end Tree

/-- An empty view with the given view identifier. -/
def emptyTree (tid : String) : Tree :=
  { identifier := tid, root := none, nodes := [] }

/-- The five-node fixture of the test suite: root `harry`, children `jane`
then `bill` (insertion order), `jane`'s child `diane`, `bill`'s child
`george`. -/
def harryTree : Tree :=
  (do
    let t ← (emptyTree "tree 1").create_node (some "Harry") "harry" none
    let t ← t.create_node (some "Jane") "jane" (some "harry")
    let t ← t.create_node (some "Bill") "bill" (some "harry")
    let t ← t.create_node (some "Diane") "diane" (some "jane")
    t.create_node (some "George") "george" (some "bill")).toOption.getD (emptyTree "tree 1")

/-- Modelled from the spec: `n.identifier = new_id` performed directly on a
node fetched from the tree — the node record stored under the old key gets
its identifier field overwritten, while the tree's index (the association
list keys) and root pointer are untouched. -/
def assign_identifier_direct (T : Tree) (nid newId : String) : Tree :=
  { T with nodes := updateNode T.nodes nid (fun n => n.set_identifier newId) }

/-- Rewrites every reference to `oldId` into `newId` in the node's
predecessor/successor entries for the given view. -/
def rewriteRefs (n : Node) (view oldId newId : String) : Node :=
  { n with
    _predecessor := fun k =>
      if k = view then (n._predecessor k).map fun p => if p = oldId then newId else p
      else n._predecessor k
    _successors := fun k =>
      if k = view then (n._successors k).map (List.map fun s => if s = oldId then newId else s)
      else n._successors k }

/-- Relocates the index entry of `nid` to the key `newId` (with the stored
identifier updated) and rewrites stale references in every entry. -/
def renameEntries (view nid newId : String) : List (String × Node) → List (String × Node)
  | [] => []
  | (ek, en) :: rest =>
    (if ek = nid then (newId, rewriteRefs (en.set_identifier newId) view nid newId)
     else (ek, rewriteRefs en view nid newId)) :: renameEntries view nid newId rest

/-- Modelled from the spec §4.3: the renaming path of
`update_node(nid, identifier=newId)` — fails on an absent `nid` or a
colliding `newId`; otherwise relocates the index entry to the new key,
updates the node's own identifier, updates the root pointer if the node
was root, and rewrites stale references in every node's per-view entries
for this view. -/
def Tree.update_node_identifier (T : Tree) (nid newId : String) : Except TreeErr Tree :=
  if (T.get_node nid).isNone then .error .NodeIDAbsentError
  else if (T.get_node newId).isSome then .error .DuplicatedNodeIdError
  else
    .ok { T with
          root := if T.root = some nid then some newId else T.root
          nodes := renameEntries T.identifier nid newId T.nodes }

theorem lookup_rename_oldId (l : List (String × Node)) (view nid newId : String)
    (hne : newId ≠ nid) :
    lookupNode (renameEntries view nid newId l) nid = none := by
  induction l with
  | nil => simp [renameEntries, lookupNode]
  | cons e rest ih =>
    obtain ⟨ek, en⟩ := e
    by_cases hk : ek = nid
    · rw [renameEntries, if_pos hk]
      have h1 : ¬nid = newId := fun hh => hne hh.symm
      rw [lookupNode, if_neg h1]
      exact ih
    · rw [renameEntries, if_neg hk]
      have h1 : ¬nid = ek := fun hh => hk hh.symm
      rw [lookupNode, if_neg h1]
      exact ih

theorem lookup_rename_newId (l : List (String × Node)) (view nid newId : String) (n : Node)
    (hold : lookupNode l nid = some n) (hnew : lookupNode l newId = none) :
    lookupNode (renameEntries view nid newId l) newId =
      some (rewriteRefs (n.set_identifier newId) view nid newId) := by
  induction l with
  | nil => simp [lookupNode] at hold
  | cons e rest ih =>
    obtain ⟨ek, en⟩ := e
    have hkne : ¬newId = ek := by
      intro hh
      subst hh
      simp [lookupNode] at hnew
    by_cases hk : ek = nid
    · have hk' : nid = ek := hk.symm
      rw [lookupNode, if_pos hk'] at hold
      obtain rfl : en = n := by simpa using hold
      rw [renameEntries, if_pos hk]
      simp [lookupNode]
    · have hk' : ¬nid = ek := fun hh => hk hh.symm
      rw [lookupNode, if_neg hk'] at hold
      rw [lookupNode, if_neg hkne] at hnew
      rw [renameEntries, if_neg hk]
      simpa [lookupNode, hkne] using ih hold hnew

/-- C5: writing `n.identifier = newId` directly bypasses the index: the
tree still answers `None` for `newId` while the entry under the old key
now carries the new identifier; the tree's rename operation
(`update_node` with an `identifier` field) instead relocates the index
entry, so the old key becomes absent and the new key yields the renamed
node. -/
theorem C5_direct_identifier_assignment_bypasses_index (T : Tree) (oldId newId : String)
    (hold : T.contains oldId = true) (hnew : T.contains newId = false) :
    ((assign_identifier_direct T oldId newId).get_node newId = none ∧
     ∃ m, (assign_identifier_direct T oldId newId).get_node oldId = some m ∧
       m.identifier = newId) ∧
    (∃ T', T.update_node_identifier oldId newId = .ok T' ∧
       T'.get_node oldId = none ∧
       ∃ m, T'.get_node newId = some m ∧ m.identifier = newId) := by
  obtain ⟨n, hn⟩ := Option.isSome_iff_exists.mp hold
  have hnone : T.get_node newId = none := by
    cases hno : T.get_node newId with
    | none => rfl
    | some m => rw [Tree.contains, hno] at hnew; simp at hnew
  have hne : newId ≠ oldId := by
    intro hh
    subst hh
    rw [hn] at hnone
    cases hnone
  constructor
  · constructor
    · show lookupNode (updateNode T.nodes oldId _) newId = none
      rw [lookupNode_updateNode, if_neg hne]
      exact hnone
    · refine ⟨n.set_identifier newId, ?_, rfl⟩
      show lookupNode (updateNode T.nodes oldId _) oldId = some _
      rw [lookupNode_updateNode, if_pos rfl]
      rw [show lookupNode T.nodes oldId = some n from hn]
      rfl
  · have hupd : T.update_node_identifier oldId newId =
        .ok { T with
              root := if T.root = some oldId then some newId else T.root
              nodes := renameEntries T.identifier oldId newId T.nodes } := by
      rw [Tree.update_node_identifier, hn, hnone]
      rfl
    refine ⟨_, hupd, ?_, ?_⟩
    · exact lookup_rename_oldId T.nodes T.identifier oldId newId hne
    · exact ⟨_, lookup_rename_newId T.nodes T.identifier oldId newId n hn hnone, rfl⟩

/-- C5 witness: renaming `jane` to `xyz` on the five-node fixture. -/
theorem C5_witness :
    (assign_identifier_direct harryTree "jane" "xyz").get_node "xyz" = none := by
  exact (C5_direct_identifier_assignment_bypasses_index harryTree "jane" "xyz"
    (by decide) (by decide)).1.1

/-- Lexicographic strict comparison on character codes (Python's `<` on
strings). -/
def charListLt : List Char → List Char → Bool
  | [], [] => false
  | [], _ :: _ => true
  | _ :: _, [] => false
  | a :: as, b :: bs =>
    if a.val < b.val then true
    else if b.val < a.val then false
    else charListLt as bs

/-- Compares strings, `a ≤ b`, via `charListLt`. -/
def strLeB (a b : String) : Bool :=
  !(charListLt b.data a.data)

/-- Inserts `x` after every element `y` with `le y x` (ascending insertion
sort step). -/
def insertByLe (le : String → String → Bool) (x : String) : List String → List String
  | [] => [x]
  | y :: ys => if le y x then y :: insertByLe le x ys else x :: y :: ys

/-- Ascending insertion sort. -/
def sortByLe (le : String → String → Bool) : List String → List String
  | [] => []
  | x :: xs => insertByLe le x (sortByLe le xs)

theorem mem_insertByLe (le : String → String → Bool) (x a : String) (l : List String) :
    a ∈ insertByLe le x l ↔ a = x ∨ a ∈ l := by
  induction l with
  | nil => simp [insertByLe]
  | cons y ys ih =>
    by_cases h : le y x = true
    · simp [insertByLe, h, ih]
      tauto
    · simp [insertByLe, h, ih]

theorem mem_sortByLe (le : String → String → Bool) (a : String) (l : List String) :
    a ∈ sortByLe le l ↔ a ∈ l := by
  induction l with
  | nil => simp [sortByLe]
  | cons x xs ih => simp [sortByLe, mem_insertByLe, ih]

/-- The sort key used by `expand_tree`'s default `key`: the node's tag
(an absent node or tag sorts as the empty string). -/
def tagKey (T : Tree) (nid : String) : String :=
  (((T.get_node nid).bind fun n => n.tag)).getD ""

/-- Modelled from the spec §4.5: when `sorting` is true a node's children
are ordered by tag before descent/enqueue, otherwise insertion order is
kept. -/
def orderIds (T : Tree) (sorting : Bool) (ids : List String) : List String :=
  if sorting then sortByLe (fun a b => strLeB (tagKey T a) (tagKey T b)) ids else ids

theorem mem_orderIds (T : Tree) (sorting : Bool) (a : String) (ids : List String) :
    a ∈ orderIds T sorting ids ↔ a ∈ ids := by
  rw [orderIds]
  by_cases h : sorting = true <;> simp [h, mem_sortByLe]

/-- Traversal modes `Tree.DEPTH` / `Tree.WIDTH`. -/
inductive TraversalMode where
  | depth
  | width

/-- Whether the filter accepts the node stored under `nid` (an absent node
never passes). -/
def passes (T : Tree) (f : Node → Bool) (nid : String) : Bool :=
  match T.get_node nid with
  | none => false
  | some n => f n

/-- Modelled from the spec §4.5: pre-order depth-first expansion with a
pruning filter — a node failing the filter is not emitted and its
children are not descended into.  `fuel` bounds the recursion depth. -/
def expandDepthAux (T : Tree) (f : Node → Bool) (sorting : Bool) :
    Nat → String → List String
  | 0, _ => []
  | fuel + 1, nid =>
    match T.get_node nid with
    | none => []
    | some n =>
      if f n then
        nid ::
          (orderIds T sorting (n.successors T.identifier)).flatMap
            (expandDepthAux T f sorting fuel)
      else []

/-- Modelled from the spec §4.5: level-order (breadth) expansion with a
pruning filter — a dequeued node failing the filter is skipped and its
children are never enqueued.  `fuel` bounds the number of dequeues. -/
def expandWidthAux (T : Tree) (f : Node → Bool) (sorting : Bool) :
    Nat → List String → List String
  | 0, _ => []
  | _ + 1, [] => []
  | fuel + 1, nid :: rest =>
    match T.get_node nid with
    | none => expandWidthAux T f sorting fuel rest
    | some n =>
      if f n then
        nid :: expandWidthAux T f sorting fuel
          (rest ++ orderIds T sorting (n.successors T.identifier))
      else expandWidthAux T f sorting fuel rest

/-- Modelled from the spec §4.5: `expand_tree(nid, mode, filter, sorting)`
as the finite sequence it produces. -/
def Tree.expand_tree (T : Tree) (nid : String) (mode : TraversalMode)
    (f : Node → Bool) (sorting : Bool) : List String :=
  match mode with
  | .depth => expandDepthAux T f sorting (T.nodes.length + 1) nid
  | .width => expandWidthAux T f sorting ((T.nodes.length + 1) * (T.nodes.length + 1)) [nid]

/-- C7: on the five-node fixture, depth mode sorted by tag, depth mode
unsorted (insertion order) and width mode sorted produce exactly the
sequences the tests record. -/
theorem C7_expand_tree_concrete :
    harryTree.expand_tree "harry" .depth (fun _ => true) true =
      ["harry", "bill", "george", "jane", "diane"] ∧
    harryTree.expand_tree "harry" .depth (fun _ => true) false =
      ["harry", "jane", "diane", "bill", "george"] ∧
    harryTree.expand_tree "harry" .width (fun _ => true) true =
      ["harry", "bill", "jane", "george", "diane"] := by
  refine ⟨?_, ?_, ?_⟩ <;> decide

/-- Modelled from the spec §4.3: the loop check of `move_node` — an
ancestor walk that starts at `cur` and follows predecessor links towards
the root, returning true as soon as `src` is encountered (so it also
detects `cur = src`). -/
def ancWalk (T : Tree) (src : String) : Nat → String → Bool
  | 0, _ => false
  | fuel + 1, cur =>
    if cur = src then true
    else
      match (T.get_node cur).bind fun n => n.predecessor T.identifier with
      | none => false
      | some p => ancWalk T src fuel p

/-- Tests that `y` is a descendant of `x` (including `y = x`), read off the ancestor
walk from `y` towards the root with enough fuel to cross the whole
index. -/
def descOrSelf (T : Tree) (x y : String) : Bool :=
  ancWalk T x (T.nodes.length + 1) y

/-- Modelled from the spec §4.3: `move_node(source, destination)` —
absent ids fail with `NodeIDAbsentError`; a destination that is a
descendant of the source (ancestor walk) fails with `LoopError`;
otherwise the source is detached from its predecessor's successor list
and attached as the last child of the destination. -/
def Tree.move_node (T : Tree) (src dst : String) : Except TreeErr Tree :=
  if (T.get_node src).isNone || (T.get_node dst).isNone then .error .NodeIDAbsentError
  else if descOrSelf T src dst then .error .LoopError
  else
    let detached :=
      match T.parent src with
      | none => T.nodes
      | some p =>
        updateNode T.nodes p fun n =>
          n.set_successors ((n.successors T.identifier).filter fun s => s != src) T.identifier
    let withPred := updateNode detached src fun n => n.set_predecessor (some dst) T.identifier
    let withSucc := updateNode withPred dst fun n => n.update_successors src T.identifier
    .ok { T with nodes := withSucc }

/-- The two-node fixture: root `a` with child `b`. -/
def abTree : Tree :=
  (do
    let t ← (emptyTree "t").create_node (some "a") "a" none
    t.create_node (some "b") "b" (some "a")).toOption.getD (emptyTree "t")

/-- C6 (counterexample): on the two-node tree rooted at `a` with child
`b`, `move_node b a` succeeds (`a` is not a descendant of `b`), but `b`'s
former parent is `a` itself, so afterwards `b` is again among its former
parent's children, contradicting the unconditional "x is no longer in its
former parent's children". -/
theorem C6_counterexample :
    abTree.parent "b" = some "a" ∧
    (abTree.move_node "b" "a").toOption.isSome = true ∧
    "b" ∈ ((abTree.move_node "b" "a").toOption.getD abTree).children "a" := by
  decide

theorem successors_set_predecessor (n : Node) (p : Option String) (t t' : String) :
    (n.set_predecessor p t).successors t' = n.successors t' := by
  cases p <;> rfl

theorem successors_set_successors (n : Node) (l : List String) (t : String) :
    (n.set_successors l t).successors t = l := by
  simp [Node.set_successors, Node.successors]

theorem not_mem_filter_ne_self (x : String) (l : List String) :
    x ∉ l.filter fun s => s != x := by
  simp [List.mem_filter]

/-- C6 (amended): with both ids present, `move_node x y` raises `LoopError`
exactly when `y` is a descendant of `x` (including `y = x`); otherwise it
succeeds, afterwards `x` is among `y`'s children, and — provided `x`'s
former parent is distinct from `y` — `x` is no longer among that former
parent's children. -/
theorem C6_move_node_loop_iff_descendant (T : Tree) (x y : String)
    (hx : T.contains x = true) (hy : T.contains y = true) :
    (T.move_node x y = .error .LoopError ↔ descOrSelf T x y = true) ∧
    (descOrSelf T x y = false →
      ∃ T', T.move_node x y = .ok T' ∧ x ∈ T'.children y ∧
        ∀ p, T.parent x = some p → p ≠ y → x ∉ T'.children p) := by
  obtain ⟨nx, hnx⟩ := Option.isSome_iff_exists.mp hx
  obtain ⟨ny, hny⟩ := Option.isSome_iff_exists.mp hy
  by_cases hd : descOrSelf T x y = true
  · have hmove : T.move_node x y = .error .LoopError := by
      simp [Tree.move_node, hnx, hny, hd]
    refine ⟨⟨fun _ => hd, fun _ => hmove⟩, ?_⟩
    intro h0
    rw [hd] at h0
    exact Bool.noConfusion h0
  · have hd' : descOrSelf T x y = false := by
      cases hdd : descOrSelf T x y
      · rfl
      · exact absurd hdd hd
    have hyx : ¬y = x := by
      intro he
      subst he
      simp [descOrSelf, ancWalk] at hd'
    cases hp : T.parent x with
    | none =>
      have hmove : T.move_node x y = .ok
          { T with nodes := updateNode (updateNode T.nodes x fun n =>
              n.set_predecessor (some y) T.identifier) y fun n =>
              n.update_successors x T.identifier } := by
        simp [Tree.move_node, hnx, hny, hd', hp]
      refine ⟨⟨fun hc => absurd (hmove.symm.trans hc) (by simp), fun hc => absurd (hd'.symm.trans hc) (by simp)⟩, ?_⟩
      intro _
      refine ⟨_, hmove, ?_, ?_⟩
      · have h1 : lookupNode (updateNode (updateNode T.nodes x fun n =>
            n.set_predecessor (some y) T.identifier) y fun n =>
            n.update_successors x T.identifier) y = some (ny.update_successors x T.identifier) := by
          rw [lookupNode_updateNode, if_pos rfl, lookupNode_updateNode, if_neg hyx]
          rw [show lookupNode T.nodes y = some ny from hny]
          rfl
        simp [Tree.children, Tree.get_node, h1, update_successors_eq_append]
      · intro p hpp hpy
        exact Option.noConfusion hpp
    | some p0 =>
      have hmove : T.move_node x y = .ok
          { T with nodes := updateNode (updateNode (updateNode T.nodes p0 fun n =>
              n.set_successors ((n.successors T.identifier).filter fun s => s != x)
                T.identifier) x fun n =>
              n.set_predecessor (some y) T.identifier) y fun n =>
              n.update_successors x T.identifier } := by
        simp [Tree.move_node, hnx, hny, hd', hp]
      refine ⟨⟨fun hc => absurd (hmove.symm.trans hc) (by simp), fun hc => absurd (hd'.symm.trans hc) (by simp)⟩, ?_⟩
      intro _
      refine ⟨_, hmove, ?_, ?_⟩
      · by_cases hyp : y = p0
        · have h1 : lookupNode (updateNode (updateNode (updateNode T.nodes p0 fun n =>
              n.set_successors ((n.successors T.identifier).filter fun s => s != x)
                T.identifier) x fun n =>
              n.set_predecessor (some y) T.identifier) y fun n =>
              n.update_successors x T.identifier) y =
              some ((ny.set_successors ((ny.successors T.identifier).filter fun s => s != x)
                T.identifier).update_successors x T.identifier) := by
            rw [lookupNode_updateNode, if_pos rfl, lookupNode_updateNode, if_neg hyx,
              lookupNode_updateNode, if_pos hyp]
            rw [show lookupNode T.nodes p0 = some ny from hyp ▸ hny]
            rfl
          simp [Tree.children, Tree.get_node, h1, update_successors_eq_append]
        · have h1 : lookupNode (updateNode (updateNode (updateNode T.nodes p0 fun n =>
              n.set_successors ((n.successors T.identifier).filter fun s => s != x)
                T.identifier) x fun n =>
              n.set_predecessor (some y) T.identifier) y fun n =>
              n.update_successors x T.identifier) y = some (ny.update_successors x T.identifier) := by
            rw [lookupNode_updateNode, if_pos rfl, lookupNode_updateNode, if_neg hyx,
              lookupNode_updateNode, if_neg hyp]
            rw [show lookupNode T.nodes y = some ny from hny]
            rfl
          simp [Tree.children, Tree.get_node, h1, update_successors_eq_append]
      · intro p hpp hpy
        have hpeq : p = p0 := by
          exact (Option.some.inj hpp).symm
        subst hpeq
        have hpy' : ¬p = y := hpy
        by_cases hpx : p = x
        · subst hpx
          have hxy : ¬p = y := hpy
          have h1 : lookupNode (updateNode (updateNode (updateNode T.nodes p fun n =>
              n.set_successors ((n.successors T.identifier).filter fun s => s != p)
                T.identifier) p fun n =>
              n.set_predecessor (some y) T.identifier) y fun n =>
              n.update_successors p T.identifier) p =
              some ((nx.set_successors ((nx.successors T.identifier).filter fun s => s != p)
                T.identifier).set_predecessor (some y) T.identifier) := by
            rw [lookupNode_updateNode, if_neg hxy, lookupNode_updateNode, if_pos rfl,
              lookupNode_updateNode, if_pos rfl]
            rw [show lookupNode T.nodes p = some nx from hnx]
            rfl
          simp only [Tree.children, Tree.get_node, h1, successors_set_predecessor,
            successors_set_successors]
          exact not_mem_filter_ne_self _ _
        · have hpx' : ¬p = x := hpx
          have h1 : lookupNode (updateNode (updateNode (updateNode T.nodes p fun n =>
              n.set_successors ((n.successors T.identifier).filter fun s => s != x)
                T.identifier) x fun n =>
              n.set_predecessor (some y) T.identifier) y fun n =>
              n.update_successors x T.identifier) p =
              (lookupNode T.nodes p).map fun n =>
                n.set_successors ((n.successors T.identifier).filter fun s => s != x)
                  T.identifier := by
            rw [lookupNode_updateNode, if_neg hpy', lookupNode_updateNode, if_neg hpx',
              lookupNode_updateNode, if_pos rfl]
          cases hnp : lookupNode T.nodes p with
          | none =>
            rw [hnp] at h1
            simp [Tree.children, Tree.get_node, h1]
          | some np =>
            rw [hnp, Option.map_some'] at h1
            simp only [Tree.children, Tree.get_node, h1, successors_set_successors]
            exact not_mem_filter_ne_self _ _

/-- C6 witness: moving `diane` under `bill` in the five-node fixture
succeeds and `diane` ends up among `bill`'s children. -/
theorem C6_witness :
    "diane" ∈ ((harryTree.move_node "diane" "bill").toOption.getD harryTree).children "bill" := by
  obtain ⟨T', hok, hmem, -⟩ :=
    (C6_move_node_loop_iff_descendant harryTree "diane" "bill" (by decide) (by decide)).2
      (by decide)
  rw [hok]
  exact hmem

/-- A successor path in the tree's view: every node on the path is present
in the index, consecutive elements are parent and child, and the path
leads from the first index to the second. -/
inductive SuccPath (T : Tree) : String → String → List String → Prop where
  | single (a : String) : (T.get_node a).isSome = true → SuccPath T a a [a]
  | cons (a b c : String) (p : List String) (n : Node) :
      T.get_node a = some n → b ∈ n.successors T.identifier →
      SuccPath T b c p → SuccPath T a c (a :: p)

theorem succPath_mem_last {T : Tree} {a b : String} {p : List String}
    (h : SuccPath T a b p) : b ∈ p := by
  induction h with
  | single a _ => exact List.mem_singleton.mpr rfl
  | cons a b' c p' n _ _ _ ih => exact List.mem_cons_of_mem _ ih

theorem succPath_snoc {T : Tree} {a b : String} {p : List String}
    (h : SuccPath T a b p) :
    ∀ (c : String) (n : Node), T.get_node b = some n → c ∈ n.successors T.identifier →
      (T.get_node c).isSome = true → SuccPath T a c (p ++ [c]) := by
  induction h with
  | single a ha =>
    intro c n hn hc hcs
    exact .cons a c c [c] n hn hc (.single c hcs)
  | cons a b' cEnd p' n' ha hb hrec ih =>
    intro c n hn hc hcs
    exact .cons a b' c (p' ++ [c]) n' ha hb (ih c n hn hc hcs)

theorem expandDepthAux_absent (T : Tree) (f : Node → Bool) (sorting : Bool) (fuel : Nat)
    (nid : String) (hn : T.get_node nid = none) :
    expandDepthAux T f sorting (fuel + 1) nid = [] := by
  rw [expandDepthAux, hn]

theorem expandDepthAux_present (T : Tree) (f : Node → Bool) (sorting : Bool) (fuel : Nat)
    (nid : String) (n : Node) (hn : T.get_node nid = some n) :
    expandDepthAux T f sorting (fuel + 1) nid =
      if f n = true then
        nid :: (orderIds T sorting (n.successors T.identifier)).flatMap
          (expandDepthAux T f sorting fuel)
      else [] := by
  rw [expandDepthAux, hn]

theorem expandWidthAux_absent (T : Tree) (f : Node → Bool) (sorting : Bool) (fuel : Nat)
    (nid : String) (rest : List String) (hn : T.get_node nid = none) :
    expandWidthAux T f sorting (fuel + 1) (nid :: rest) =
      expandWidthAux T f sorting fuel rest := by
  rw [expandWidthAux, hn]

theorem expandWidthAux_present (T : Tree) (f : Node → Bool) (sorting : Bool) (fuel : Nat)
    (nid : String) (rest : List String) (n : Node) (hn : T.get_node nid = some n) :
    expandWidthAux T f sorting (fuel + 1) (nid :: rest) =
      if f n = true then
        nid :: expandWidthAux T f sorting fuel
          (rest ++ orderIds T sorting (n.successors T.identifier))
      else expandWidthAux T f sorting fuel rest := by
  rw [expandWidthAux, hn]

theorem expandDepth_path (T : Tree) (f : Node → Bool) (sorting : Bool) :
    ∀ (fuel : Nat) (nid d : String), d ∈ expandDepthAux T f sorting fuel nid →
      ∃ p, SuccPath T nid d p ∧ ∀ e ∈ p, passes T f e = true := by
  intro fuel
  induction fuel with
  | zero =>
    intro nid d h
    simp [expandDepthAux] at h
  | succ fuel ih =>
    intro nid d h
    cases hn : T.get_node nid with
    | none =>
      rw [expandDepthAux_absent T f sorting fuel nid hn] at h
      simp at h
    | some n =>
      rw [expandDepthAux_present T f sorting fuel nid n hn] at h
      by_cases hf : f n = true
      · rw [if_pos hf] at h
        have hpass : passes T f nid = true := by simp [passes, hn, hf]
        rcases List.mem_cons.mp h with rfl | h2
        · refine ⟨[d], .single d (by simp [hn]), ?_⟩
          intro e he
          rw [List.mem_singleton.mp he]
          exact hpass
        · obtain ⟨c, hc, hd⟩ := List.mem_flatMap.mp h2
          obtain ⟨p, hp, hall⟩ := ih c d hd
          refine ⟨nid :: p, .cons nid c d p n hn ((mem_orderIds T sorting c _).mp hc) hp, ?_⟩
          intro e he
          rcases List.mem_cons.mp he with rfl | he2
          · exact hpass
          · exact hall e he2
      · rw [if_neg hf] at h
        simp at h

theorem expandWidth_nil (T : Tree) (f : Node → Bool) (sorting : Bool) (fuel : Nat) :
    expandWidthAux T f sorting fuel [] = [] := by
  cases fuel <;> rfl

theorem expandWidth_path (T : Tree) (f : Node → Bool) (sorting : Bool) (start : String) :
    ∀ (fuel : Nat) (queue : List String),
      (∀ q ∈ queue, passes T f q = true →
        ∃ p, SuccPath T start q p ∧ ∀ e ∈ p, passes T f e = true) →
      ∀ d ∈ expandWidthAux T f sorting fuel queue,
        ∃ p, SuccPath T start d p ∧ ∀ e ∈ p, passes T f e = true := by
  intro fuel
  induction fuel with
  | zero =>
    intro queue hinv d hd
    simp [expandWidthAux] at hd
  | succ fuel ih =>
    intro queue hinv d hd
    cases queue with
    | nil => simp [expandWidthAux] at hd
    | cons nid rest =>
      cases hn : T.get_node nid with
      | none =>
        rw [expandWidthAux_absent T f sorting fuel nid rest hn] at hd
        exact ih rest (fun q hq => hinv q (List.mem_cons_of_mem _ hq)) d hd
      | some n =>
        rw [expandWidthAux_present T f sorting fuel nid rest n hn] at hd
        by_cases hf : f n = true
        · rw [if_pos hf] at hd
          have hpassnid : passes T f nid = true := by simp [passes, hn, hf]
          rcases List.mem_cons.mp hd with rfl | hd2
          · exact hinv d (List.mem_cons_self _ _) hpassnid
          · refine ih (rest ++ orderIds T sorting (n.successors T.identifier)) ?_ d hd2
            intro q hq hpq
            rcases List.mem_append.mp hq with hq1 | hq2
            · exact hinv q (List.mem_cons_of_mem _ hq1) hpq
            · obtain ⟨p, hp, hall⟩ := hinv nid (List.mem_cons_self _ _) hpassnid
              have hqs : (T.get_node q).isSome = true := by
                cases hq0 : T.get_node q with
                | none => simp [passes, hq0] at hpq
                | some _ => simp
              refine ⟨p ++ [q],
                succPath_snoc hp q n hn ((mem_orderIds T sorting q _).mp hq2) hqs, ?_⟩
              intro e he
              rcases List.mem_append.mp he with he1 | he2
              · exact hall e he1
              · rw [List.mem_singleton.mp he2]
                exact hpq
        · rw [if_neg hf] at hd
          exact ih rest (fun q hq => hinv q (List.mem_cons_of_mem _ hq)) d hd

theorem expandWidth_start_fails (T : Tree) (f : Node → Bool) (sorting : Bool) (nid : String)
    (hfail : passes T f nid = false) :
    ∀ fuel, expandWidthAux T f sorting fuel [nid] = [] := by
  intro fuel
  cases fuel with
  | zero => rfl
  | succ fuel =>
    cases hn : T.get_node nid with
    | none =>
      rw [expandWidthAux_absent T f sorting fuel nid [] hn]
      exact expandWidth_nil T f sorting fuel
    | some n =>
      have hf : f n = false := by simpa [passes, hn] using hfail
      rw [expandWidthAux_present T f sorting fuel nid [] n hn, hf]
      simp [expandWidth_nil]

/-- C8: every identifier produced by `expand_tree` with a filter lies on a
successor path from the start node on which every node passes the filter
(so a failing node is never emitted, and no node reachable only through a
failing node is ever visited — pruning, not hiding), and a start node
failing the filter produces the empty sequence. -/
theorem C8_filter_prunes_subtrees (T : Tree) (f : Node → Bool) (mode : TraversalMode)
    (sorting : Bool) (nid : String) :
    (∀ d ∈ T.expand_tree nid mode f sorting,
      ∃ p, SuccPath T nid d p ∧ d ∈ p ∧ ∀ e ∈ p, passes T f e = true) ∧
    (passes T f nid = false → T.expand_tree nid mode f sorting = []) := by
  constructor
  · intro d hd
    cases mode with
    | depth =>
      obtain ⟨p, hp, hall⟩ := expandDepth_path T f sorting _ nid d hd
      exact ⟨p, hp, succPath_mem_last hp, hall⟩
    | width =>
      have hinv : ∀ q ∈ [nid], passes T f q = true →
          ∃ p, SuccPath T nid q p ∧ ∀ e ∈ p, passes T f e = true := by
        intro q hq hpq
        rw [List.mem_singleton.mp hq] at hpq ⊢
        have hqs : (T.get_node nid).isSome = true := by
          cases hq0 : T.get_node nid with
          | none => simp [passes, hq0] at hpq
          | some _ => simp
        refine ⟨[nid], .single nid hqs, ?_⟩
        intro e he
        rw [List.mem_singleton.mp he]
        exact hpq
      obtain ⟨p, hp, hall⟩ := expandWidth_path T f sorting nid _ [nid] hinv d hd
      exact ⟨p, hp, succPath_mem_last hp, hall⟩
  · intro hfail
    cases mode with
    | depth =>
      show expandDepthAux T f sorting (T.nodes.length + 1) nid = []
      cases hn : T.get_node nid with
      | none => exact expandDepthAux_absent T f sorting _ nid hn
      | some n =>
        have hf : f n = false := by simpa [passes, hn] using hfail
        rw [expandDepthAux_present T f sorting _ nid n hn, hf]
        simp
    | width =>
      exact expandWidth_start_fails T f sorting nid hfail _

/-- C8 witness: on the five-node fixture the filter `tag == "Bill"` fails
at the start node `harry`, so the produced sequence is empty. -/
theorem C8_witness :
    harryTree.expand_tree "harry" .depth (fun n => n.tag == some "Bill") true = [] := by
  exact (C8_filter_prunes_subtrees harryTree (fun n => n.tag == some "Bill") .depth true
    "harry").2 (by decide)

/-- Copies the node's predecessor and successor entries for the source
view into the destination view (the sharing step of a shallow `paste`). -/
def clone_pointers (n : Node) (srcView dstView : String) : Node :=
  { n with
    _predecessor := fun k => if k = dstView then n._predecessor srcView else n._predecessor k
    _successors := fun k => if k = dstView then n._successors srcView else n._successors k }

theorem successors_clone_pointers (n : Node) (src dst : String) :
    (clone_pointers n src dst).successors dst = n.successors src := by
  simp [clone_pointers, Node.successors]

theorem predecessor_set_predecessor_self (n : Node) (q : String) (t : String) :
    (n.set_predecessor (some q) t).predecessor t = some q := by
  simp [Node.set_predecessor, Node.predecessor]

/-- Registers every entry of the source index under the destination view
(via `clone_pointers`), keeping the keys. -/
def cloneEntries (srcView dstView : String) : List (String × Node) → List (String × Node)
  | [] => []
  | (ek, en) :: rest => (ek, clone_pointers en srcView dstView) :: cloneEntries srcView dstView rest

theorem lookup_cloneEntries (l : List (String × Node)) (src dst k : String) :
    lookupNode (cloneEntries src dst l) k =
      (lookupNode l k).map fun n => clone_pointers n src dst := by
  induction l with
  | nil => simp [cloneEntries, lookupNode]
  | cons e rest ih =>
    obtain ⟨ek, en⟩ := e
    by_cases h : k = ek
    · rw [cloneEntries, lookupNode, if_pos h, lookupNode, if_pos h]
      rfl
    · rw [cloneEntries, lookupNode, if_neg h, lookupNode, if_neg h]
      exact ih

/-- The destination index after a successful shallow paste: the source
entries join it registered under the destination view, the source root
`r` gets `nid` as predecessor, and `nid` gets `r` appended as last
child. -/
def pasteNodes (T other : Tree) (nid r : String) : List (String × Node) :=
  updateNode
    (updateNode (T.nodes ++ cloneEntries other.identifier T.identifier other.nodes)
      r fun n => n.set_predecessor (some nid) T.identifier)
    nid fun n => n.update_successors r T.identifier

/-- Modelled from the spec §4.4: shallow `paste(nid, other)` — fails on an
absent `nid`; fails with a `ValueError` listing every duplicated
identifier when the two indexes overlap; pasting an empty tree is a
no-op; otherwise the source's entries join the destination index with
their topology registered under the destination's view, the source's root
gets `nid` as predecessor, and `nid` gets the source's root appended as
last child. -/
def Tree.paste (T : Tree) (nid : String) (other : Tree) : Except TreeErr Tree :=
  if (T.get_node nid).isNone then .error .NodeIDAbsentError
  else
    let dups := (T.nodes.map Prod.fst).filter fun k => other.contains k
    if dups.isEmpty then
      match other.root with
      | none => .ok T
      | some r => .ok { T with nodes := pasteNodes T other nid r }
    else .error (.ValueErrorDup dups)

theorem lookup_pasteNodes_src (T other : Tree) (nid r : String)
    (hnid : T.contains nid = true)
    (hdisj : ∀ k, other.contains k = true → T.contains k = false)
    (a : String) (na : Node) (ha : other.get_node a = some na) :
    ∃ m, lookupNode (pasteNodes T other nid r) a = some m ∧
      m.successors T.identifier = na.successors other.identifier := by
  have hca : other.contains a = true := by simp [Tree.contains, ha]
  have hTa : T.contains a = false := hdisj a hca
  have hTanone : lookupNode T.nodes a = none := by
    cases h0 : T.get_node a with
    | none => exact h0
    | some m =>
      rw [Tree.contains, h0] at hTa
      simp at hTa
  have hanid : ¬a = nid := by
    intro he
    subst he
    exact Bool.noConfusion (hTa.symm.trans hnid)
  have h1 : lookupNode (T.nodes ++ cloneEntries other.identifier T.identifier other.nodes) a
      = some (clone_pointers na other.identifier T.identifier) := by
    rw [lookupNode_append, hTanone, lookup_cloneEntries,
      show lookupNode other.nodes a = some na from ha]
    rfl
  by_cases har : a = r
  · refine ⟨(clone_pointers na other.identifier T.identifier).set_predecessor (some nid)
      T.identifier, ?_, ?_⟩
    · rw [pasteNodes, lookupNode_updateNode, if_neg hanid, lookupNode_updateNode, if_pos har,
        show lookupNode (T.nodes ++ cloneEntries other.identifier T.identifier other.nodes) r
          = some (clone_pointers na other.identifier T.identifier) from har ▸ h1]
      rfl
    · rw [successors_set_predecessor, successors_clone_pointers]
  · refine ⟨clone_pointers na other.identifier T.identifier, ?_, ?_⟩
    · rw [pasteNodes, lookupNode_updateNode, if_neg hanid, lookupNode_updateNode, if_neg har, h1]
    · rw [successors_clone_pointers]

theorem succPath_paste (T other : Tree) (nid r : String)
    (hnid : T.contains nid = true)
    (hdisj : ∀ k, other.contains k = true → T.contains k = false)
    {a b : String} {p : List String} (h : SuccPath other a b p) :
    SuccPath { T with nodes := pasteNodes T other nid r } a b p := by
  induction h with
  | single a ha =>
    obtain ⟨na, hna⟩ := Option.isSome_iff_exists.mp ha
    obtain ⟨m, hm, -⟩ := lookup_pasteNodes_src T other nid r hnid hdisj a na hna
    exact .single a (by simp [Tree.get_node, hm])
  | cons a b c p n hna hb hrec ih =>
    obtain ⟨m, hm, hsucc⟩ := lookup_pasteNodes_src T other nid r hnid hdisj a n hna
    refine .cons a b c p m hm ?_ ih
    show b ∈ m.successors T.identifier
    rw [hsucc]
    exact hb

/-- C9: with `nid` present in the destination, `paste(nid, other)` raises
`ValueError` carrying exactly the duplicated identifiers whenever the two
identifier sets overlap (the destination value is not produced, so it is
unchanged); with no overlap, every node of `other` becomes reachable from
`nid` by a successor path in the result, and `other`'s former root's
parent in the destination's view is `nid`. -/
theorem C9_paste_collision_or_graft (T other : Tree) (nid r : String)
    (hnid : T.contains nid = true) :
    ((∃ k, T.contains k = true ∧ other.contains k = true) →
      ∃ l, T.paste nid other = .error (.ValueErrorDup l) ∧
        ∀ k, k ∈ l ↔ T.contains k = true ∧ other.contains k = true) ∧
    ((∀ k, other.contains k = true → T.contains k = false) →
      other.root = some r → other.contains r = true →
      (∀ k, other.contains k = true → ∃ pa, SuccPath other r k pa) →
      ∃ T', T.paste nid other = .ok T' ∧
        (∀ k, other.contains k = true → ∃ pa, SuccPath T' nid k pa) ∧
        T'.parent r = some nid) := by
  obtain ⟨nn, hnn⟩ := Option.isSome_iff_exists.mp hnid
  constructor
  · rintro ⟨k0, hk0T, hk0o⟩
    have hk0mem : k0 ∈ (T.nodes.map Prod.fst).filter fun k => other.contains k :=
      List.mem_filter.mpr ⟨(lookupNode_isSome_iff _ _).mp hk0T, hk0o⟩
    have hie : ((T.nodes.map Prod.fst).filter fun k => other.contains k).isEmpty = false := by
      rw [Bool.eq_false_iff]
      intro hh
      exact List.ne_nil_of_mem hk0mem (List.isEmpty_iff.mp hh)
    have hpaste : T.paste nid other =
        .error (.ValueErrorDup ((T.nodes.map Prod.fst).filter fun k => other.contains k)) := by
      simp [Tree.paste, hnn, hie]
    refine ⟨_, hpaste, ?_⟩
    intro k
    rw [List.mem_filter]
    exact ⟨fun ⟨h1, h2⟩ => ⟨(lookupNode_isSome_iff _ _).mpr h1, h2⟩,
      fun ⟨h1, h2⟩ => ⟨(lookupNode_isSome_iff _ _).mp h1, h2⟩⟩
  · intro hdisj hroot hrcont hreach
    have hfil : ((T.nodes.map Prod.fst).filter fun k => other.contains k) = [] := by
      rw [List.filter_eq_nil_iff]
      intro k hk hck
      exact Bool.noConfusion
        (((hdisj k hck).symm.trans ((lookupNode_isSome_iff _ _).mpr hk)))
    have hnidr : ¬nid = r := by
      intro he
      subst he
      exact Bool.noConfusion ((hdisj nid hrcont).symm.trans hnid)
    have hpaste : T.paste nid other = .ok { T with nodes := pasteNodes T other nid r } := by
      simp [Tree.paste, hnn, hfil, hroot]
    refine ⟨_, hpaste, ?_, ?_⟩
    · intro k hk
      obtain ⟨pa, hpa⟩ := hreach k hk
      have hpa' := succPath_paste T other nid r hnid hdisj hpa
      have hlook : lookupNode (pasteNodes T other nid r) nid =
          some (nn.update_successors r T.identifier) := by
        rw [pasteNodes, lookupNode_updateNode, if_pos rfl, lookupNode_updateNode, if_neg hnidr,
          lookupNode_append, show lookupNode T.nodes nid = some nn from hnn]
        rfl
      refine ⟨nid :: pa, .cons nid r k pa (nn.update_successors r T.identifier) hlook ?_ hpa'⟩
      show r ∈ (nn.update_successors r T.identifier).successors T.identifier
      rw [update_successors_eq_append]
      simp
    · obtain ⟨nr, hnr⟩ := Option.isSome_iff_exists.mp hrcont
      have hTrnone : lookupNode T.nodes r = none := by
        have hTr := hdisj r hrcont
        cases h0 : T.get_node r with
        | none => exact h0
        | some m =>
          rw [Tree.contains, h0] at hTr
          simp at hTr
      have hl : lookupNode (pasteNodes T other nid r) r =
          some ((clone_pointers nr other.identifier T.identifier).set_predecessor (some nid)
            T.identifier) := by
        rw [pasteNodes, lookupNode_updateNode, if_neg (fun he => hnidr he.symm),
          lookupNode_updateNode, if_pos rfl, lookupNode_append, hTrnone, lookup_cloneEntries,
          show lookupNode other.nodes r = some nr from hnr]
        rfl
      show Tree.parent _ r = some nid
      rw [Tree.parent, show Tree.get_node { T with nodes := pasteNodes T other nid r } r =
        some ((clone_pointers nr other.identifier T.identifier).set_predecessor (some nid)
          T.identifier) from hl]
      exact predecessor_set_predecessor_self _ _ _

/-- A one-node destination tree: root `A`, view `t1`. -/
def pasteDst : Tree :=
  ((emptyTree "t1").create_node (some "A") "A" none).toOption.getD (emptyTree "t1")

/-- A two-node source tree: root `X` with child `Y`, view `t2`. -/
def pasteSrc : Tree :=
  (do
    let t ← (emptyTree "t2").create_node (some "X") "X" none
    t.create_node (some "Y") "Y" (some "X")).toOption.getD (emptyTree "t2")

/-- C9 witness: pasting the `X`–`Y` tree under `A` succeeds, both source
nodes become reachable from `A`, and `X`'s parent is `A`. -/
theorem C9_witness :
    ∃ T', pasteDst.paste "A" pasteSrc = .ok T' ∧
      (∀ k, pasteSrc.contains k = true → ∃ pa, SuccPath T' "A" k pa) ∧
      T'.parent "X" = some "A" := by
  have hkeys : pasteSrc.nodes.map Prod.fst = ["X", "Y"] := by decide
  have hdisj : ∀ k, pasteSrc.contains k = true → pasteDst.contains k = false := by
    intro k hk
    have hmem : k ∈ pasteSrc.nodes.map Prod.fst := (lookupNode_isSome_iff _ _).mp hk
    rw [hkeys] at hmem
    rcases List.mem_cons.mp hmem with rfl | h2
    · decide
    · rcases List.mem_cons.mp h2 with rfl | h3
      · decide
      · exact absurd h3 (List.not_mem_nil k)
  have hreach : ∀ k, pasteSrc.contains k = true → ∃ pa, SuccPath pasteSrc "X" k pa := by
    intro k hk
    have hmem : k ∈ pasteSrc.nodes.map Prod.fst := (lookupNode_isSome_iff _ _).mp hk
    rw [hkeys] at hmem
    rcases List.mem_cons.mp hmem with rfl | h2
    · exact ⟨["X"], .single "X" (by decide)⟩
    · rcases List.mem_cons.mp h2 with rfl | h3
      · exact ⟨["X", "Y"], .cons "X" "Y" "Y" ["Y"] _ rfl (by decide) (.single "Y" (by decide))⟩
      · exact absurd h3 (List.not_mem_nil k)
  exact (C9_paste_collision_or_graft pasteDst pasteSrc "A" "X" (by decide)).2 hdisj rfl
    (by decide) hreach

end TreeIsUp
